import Mathlib

/-!
Verification of the crawl-extract-dedupe-link-persist pipeline of the
quotes-scraper repository (five implementation variants: `main.py`,
`main_asincio.py`, `main_asincio_motor.py`, `main_oop.py`,
`main_oop_asincio.py`).

The HTML documents are embedded by their query surface: a listing page is the
list of its quote elements (each carrying the texts of its
`<small class="author">` children, the `href` of its first `<a class="">`
child, the text of its `<span class="text">` child and the texts of its
`<a class="tag">` children, in markup order), and an author detail page is the
four optionally-present structural fields read by `parse_authors`. Network
fetching is embedded as a function from URL to document.
-/

namespace Hw9

/-- Text contents of an HTML element structure as the extractors read them.
One quote element (`div.quote`): `author_smalls` are the texts of its
`small.author` descendants in markup order (`find` returns the first,
`find_all` returns all), `about_href` is the `href` of its first unclassed
anchor (the author about-link), `quote_text` is the text of its `span.text`
child and `tag_texts` are the texts of its `a.tag` descendants in markup
order. -/
structure QuoteEl where
  author_smalls : List String
  about_href : String
  quote_text : String
  tag_texts : List String
deriving DecidableEq

/-- One listing page, given as its `div.quote` elements in document order.
`soup.find_all("div", class_="quote")` returns exactly this list. -/
structure Page where
  quotes : List QuoteEl
deriving DecidableEq

/-- The list returned by `soup.find_all("small", class_="author")` on a
listing page: all author-name elements in document order, i.e. the
concatenation of the per-quote author-name lists. -/
def Page.small_authors (p : Page) : List String :=
  (p.quotes.map (fun q => q.author_smalls)).flatten

/-- An author detail page as `parse_authors` queries it: the four structural
fields (`h3.author-title`, `span.author-born-date`,
`span.author-born-location`, `div.author-description`), each `none` when
`soup.find` returns no such element. -/
structure AuthorPage where
  author_title : Option String
  author_born_date : Option String
  author_born_location : Option String
  author_description : Option String
deriving DecidableEq

/-- The dictionaries built by `get_authors_info`:
`{"author_name": ..., "author_info_url": ...}`. -/
structure AuthorLink where
  author_name : String
  author_info_url : String
deriving DecidableEq

/-- The dictionaries built by `parse_authors`:
`{"fullname", "born_date", "born_location", "description"}`. -/
structure AuthorData where
  fullname : String
  born_date : String
  born_location : String
  description : String
deriving DecidableEq

/-- The dictionaries built by `parse_quotes`:
`{"tags": ..., "author": ..., "quote": ...}`. -/
structure QuoteData where
  tags : List String
  author : String
  quote : String
deriving DecidableEq

/-! ## Pagination (`get_pages`)

`get_pages` appears with identical loop bodies in `main.py` lines 37-51,
`main_asincio.py` lines 38-52, `main_asincio_motor.py` lines 48-61,
`main_oop.py` lines 107-121 and 175-189, `main_oop_asincio.py` lines 112-126
and 181-195. The environment is embedded as `f : String → Option String`:
`f u` is the `href` of the anchor inside the `li.next` element of the page at
URL `u`, or `none` when that page has no `li.next` element. -/

/-- The `while link_to_parse:` loop of `get_pages`. `fuel` bounds the number
of iterations (the source loop has no bound; `none` is returned exactly when
the bound is exhausted, so a `some` result is the value the unbounded loop
produces). Each iteration fetches `link_to_parse`, reads the next `href`, and
appends `base_link + href` (not `link_to_parse + href`). -/
def get_pages_loop (f : String → Option String) (base_link : String) :
    Nat → String → List String → Option (List String)
  | 0, _, _ => none
  | fuel + 1, link_to_parse, links =>
    match f link_to_parse with
    | some href =>
        get_pages_loop f base_link fuel (base_link ++ href)
          (links ++ [base_link ++ href])
    | none => some links

/-- `get_pages(base_link)`: start from `links = [base_link]`,
`link_to_parse = base_link`, and run the loop. -/
def get_pages (f : String → Option String) (base_link : String) (fuel : Nat) :
    Option (List String) :=
  get_pages_loop f base_link fuel base_link [base_link]

/-- A finite acyclic next-chain starting at `cur`: `hs` is the list of `href`
values read page by page, and after reading `h` the walk continues at
`base ++ h` (as the source does); the final page has no next link. -/
def next_chain (f : String → Option String) (base : String) :
    String → List String → Prop
  | cur, [] => f cur = none
  | cur, h :: rest => f cur = some h ∧ next_chain f base (base ++ h) rest

theorem get_pages_loop_chain (f : String → Option String) (base : String) :
    ∀ (hs : List String) (fuel : Nat) (cur : String) (acc : List String),
      next_chain f base cur hs → hs.length < fuel →
      get_pages_loop f base fuel cur acc =
        some (acc ++ hs.map (fun h => base ++ h)) := by
  intro hs
  induction hs with
  | nil =>
      intro fuel cur acc hch hf
      cases fuel with
      | zero => exact absurd hf (by simp)
      | succ n =>
          simp only [next_chain] at hch
          simp [get_pages_loop, hch]
  | cons h rest ih =>
      intro fuel cur acc hch hf
      cases fuel with
      | zero => exact absurd hf (by simp)
      | succ n =>
          obtain ⟨h1, h2⟩ := hch
          simp only [get_pages_loop, h1]
          rw [ih n (base ++ h) (acc ++ [base ++ h]) h2
            (by simpa using Nat.lt_of_succ_lt_succ hf)]
          simp

/-! ## Author profile parsing (`parse_authors`)

The body appears identically in `main.py` lines 77-96, `main_asincio.py`
lines 78-97, `main_oop.py` lines 145-166 (`AuthorScraper.parse_data`),
`main_oop_asincio.py` lines 151-172, and `main_asincio_motor.py` lines 86-109
(which first gathers all fetches, preserving input order, then parses each
document in that order). `fetch` embeds `get_soup`: it maps a URL to the
author detail page served there. -/

/-- Extraction of the four fields from one fetched author document:
`soup.find(...).text.strip()` for each of `h3.author-title`,
`span.author-born-date`, `span.author-born-location`,
`div.author-description`. A missing element makes `.text` raise
(`AttributeError` on `None`), aborting the whole parse: embedded as `none`. -/
def parse_author_page (p : AuthorPage) : Option AuthorData :=
  match p.author_title with
  | none => none
  | some t =>
    match p.author_born_date with
    | none => none
    | some d =>
      match p.author_born_location with
      | none => none
      | some loc =>
        match p.author_description with
        | none => none
        | some desc =>
            some { fullname := t.trim, born_date := d.trim,
                   born_location := loc.trim, description := desc.trim }

/-- The `for author in author_links:` loop of `parse_authors`: fetch each
reference's `author_info_url`, extract the four fields, append the record;
the first structural failure aborts the whole operation. -/
def parse_authors (fetch : String → AuthorPage) :
    List AuthorLink → Option (List AuthorData)
  | [] => some []
  | a :: rest =>
    match parse_author_page (fetch a.author_info_url) with
    | none => none
    | some d =>
      match parse_authors fetch rest with
      | none => none
      | some ds => some (d :: ds)

/-! ## Quote parsing (`parse_quotes`)

Identical bodies in `main.py` lines 99-120, `main_asincio.py` lines 100-121,
`main_oop.py` lines 191-212 (`QuoteScraper.parse_data`), `main_oop_asincio.py`
lines 197-218, `main_asincio_motor.py` lines 112-137 (tag loop written as an
explicit `for` instead of a comprehension, same result). -/

/-- Extraction from one `div.quote` element: author display name
(`el.find("small", class_="author").text`, the first author-name child;
missing element aborts), quote text, and the tag texts in markup order, each
stripped — no dedup and no sort. -/
def parse_quote_el (el : QuoteEl) : Option QuoteData :=
  match el.author_smalls.head? with
  | none => none
  | some a =>
      some { tags := el.tag_texts.map String.trim, author := a,
             quote := el.quote_text }

/-- The inner `for el in quotes:` loop of `parse_quotes` over one page's quote
elements. -/
def parse_quotes_els : List QuoteEl → Option (List QuoteData)
  | [] => some []
  | el :: rest =>
    match parse_quote_el el with
    | none => none
    | some q =>
      match parse_quotes_els rest with
      | none => none
      | some qs => some (q :: qs)

/-- The outer `for url in links:` loop of `parse_quotes`: the records of all
pages concatenated in crawl order. -/
def parse_quotes : List Page → Option (List QuoteData)
  | [] => some []
  | p :: rest =>
    match parse_quotes_els p.quotes with
    | none => none
    | some qs =>
      match parse_quotes rest with
      | none => none
      | some qs2 => some (qs ++ qs2)

/-! ## Author reference collection and deduplication (`get_authors_info`)

Identical bodies in `main.py` lines 54-74, `main_asincio.py` lines 55-75,
`main_asincio_motor.py` lines 64-83, `main_oop.py` lines 123-143;
`main_oop_asincio.py` lines 128-149 writes the index loop as
`for el, author in enumerate(authors)`, same semantics. -/

/-- The `for el in range(len(authors)):` loop: walk the page's author-name
texts with their position `el`; a name already present in the accumulated
`author_links` is skipped; otherwise the about-link is read from the quote
element at the same position (`authors_description[el]`) — `none` embeds the
`IndexError` raised when `el` is out of range of the quote-element list. -/
def authors_info_loop (base_url : String) (quotes : List QuoteEl) :
    List String → Nat → List AuthorLink → Option (List AuthorLink)
  | [], _, acc => some acc
  | name :: rest, el, acc =>
    if acc.any (fun a => a.author_name == name) then
      authors_info_loop base_url quotes rest (el + 1) acc
    else
      match quotes[el]? with
      | none => none
      | some q =>
          authors_info_loop base_url quotes rest (el + 1)
            (acc ++ [{ author_name := name,
                       author_info_url := base_url ++ q.about_href }])

/-- Processing of one page inside `get_authors_info`:
`authors = soup.find_all("small", class_="author")`,
`authors_description = soup.find_all("div", class_="quote")`, then the index
loop starting at `el = 0` against the accumulated `author_links`. -/
def get_authors_info_page (base_url : String) (p : Page)
    (acc : List AuthorLink) : Option (List AuthorLink) :=
  authors_info_loop base_url p.quotes p.small_authors 0 acc

/-- The `for url in urls:` loop of `get_authors_info`, threading
`author_links` across pages. -/
def get_authors_info_pages (base_url : String) :
    List Page → List AuthorLink → Option (List AuthorLink)
  | [], acc => some acc
  | p :: rest, acc =>
    match get_authors_info_page base_url p acc with
    | none => none
    | some acc2 => get_authors_info_pages base_url rest acc2

/-- `get_authors_info(base_url, urls)` with `author_links = []` initially. -/
def get_authors_info (base_url : String) (pages : List Page) :
    Option (List AuthorLink) :=
  get_authors_info_pages base_url pages []

/-- Reference dedupe stated directly on a flat sequence of author references:
process left to right, keep a reference only when no kept reference already
carries its name (first occurrence wins). `get_authors_info` is proved equal
to this on the per-quote reference sequence of the crawled pages. -/
def dedupe_refs : List AuthorLink → List AuthorLink → List AuthorLink
  | [], acc => acc
  | r :: rest, acc =>
    if acc.any (fun a => a.author_name == r.author_name) then
      dedupe_refs rest acc
    else
      dedupe_refs rest (acc ++ [r])

/-- The author reference induced by one quote element: its (first) author-name
text paired with `base_url + about_href`. -/
def quote_ref (base_url : String) (q : QuoteEl) : AuthorLink :=
  { author_name := q.author_smalls.head?.getD "",
    author_info_url := base_url ++ q.about_href }

/-- Per-quote author references of one page, in document order. -/
def page_refs (base_url : String) (p : Page) : List AuthorLink :=
  p.quotes.map (quote_ref base_url)

/-- Per-quote author references of the whole crawl, in crawl order. -/
def pages_refs (base_url : String) (pages : List Page) : List AuthorLink :=
  (pages.map (page_refs base_url)).flatten

/-- Well-formedness of the listing markup assumed by the positional pairing
in `get_authors_info`: every quote element displays exactly one author name. -/
def aligned_b (pages : List Page) : Bool :=
  pages.all (fun p => p.quotes.all (fun q => q.author_smalls.length == 1))

/-! ## The document store and the persistence functions

Modelled from the spec: the document-store collaborator itself (and the
`models.py` module defining the `Author` and `Quote` document classes) is not
among the repository sources; per spec section 6 the store exposes
`findOne(collection, filter)`, `insertOne(collection, record)` and
`insertMany(collection, records)` with no transactions and no further
constraints, so an insert always adds a fresh document and a find-by-field
returns the first stored match. A stored quote references its author by the
author document's identity (`_id`), embedded here as the author's position in
the authors collection (positions are stable because nothing deletes). -/

/-- A stored quote document: `tags`, the referenced author document's
identity, and the quote text. -/
structure StoredQuote where
  tags : List String
  author : Nat
  quote : String
deriving DecidableEq

/-- The document store: the `authors` collection and the `quotes` collection,
each in insertion order. -/
structure Db where
  authors : List AuthorData
  quotes : List StoredQuote
deriving DecidableEq

/-- `Author.objects(fullname=name).first()` / `find_one({"fullname": name})`:
identity of the first stored author document whose `fullname` equals `name`
exactly, `none` when there is no match. -/
def find_author_idx (authors : List AuthorData) (name : String) : Option Nat :=
  match authors with
  | [] => none
  | a :: rest =>
    if a.fullname == name then some 0
    else (find_author_idx rest name).map (fun i => i + 1)

/-- Truthiness of `Author.objects(fullname=name).first()`. -/
def author_present (authors : List AuthorData) (name : String) : Bool :=
  (find_author_idx authors name).isSome

/-- Truthiness of `Quote.objects(quote=t).first()`. -/
def quote_present (quotes : List StoredQuote) (t : String) : Bool :=
  quotes.any (fun sq => sq.quote == t)

/-- One `Author(**author_data).save()` of `upload_author_data` in `main.py`
lines 123-128 (identically `main_asincio.py` lines 124-129 and `main_oop.py`
lines 39-44, `Database.upload_author_data`): an unconditional insert of a new
author document. -/
def upload_author_step (s : Db) (a : AuthorData) : Db :=
  { s with authors := s.authors ++ [a] }

/-- `upload_author_data(authors_data)` of `main.py` / `main_asincio.py` /
`main_oop.py`: save every record in order. -/
def upload_author_data (s : Db) (ds : List AuthorData) : Db :=
  ds.foldl upload_author_step s

/-- `upload_author_data(authors_data, db)` of `main_asincio_motor.py` lines
141-144: one `insert_many` of all records. -/
def upload_author_data_motor (s : Db) (ds : List AuthorData) : Db :=
  { s with authors := s.authors ++ ds }

/-- One iteration of `Database.upload_author_data` in `main_oop_asincio.py`
lines 40-47: insert only if `Author.objects(fullname=...).first()` finds
nothing. -/
def upload_author_step_checked (s : Db) (a : AuthorData) : Db :=
  if author_present s.authors a.fullname then s
  else { s with authors := s.authors ++ [a] }

/-- `Database.upload_author_data(authors_data)` of `main_oop_asincio.py`. -/
def upload_author_data_checked (s : Db) (ds : List AuthorData) : Db :=
  ds.foldl upload_author_step_checked s

/-- One iteration of `upload_quotes_data` in `main.py` lines 131-140
(identically `main_asincio.py` lines 132-141 and `main_oop.py` lines 46-55):
look the author name up in the stored authors; when found, insert the quote
referencing that author document, otherwise silently skip the quote. -/
def upload_quote_step (s : Db) (q : QuoteData) : Db :=
  match find_author_idx s.authors q.author with
  | some i => { s with quotes := s.quotes ++ [⟨q.tags, i, q.quote⟩] }
  | none => s

/-- `upload_quotes_data(quotes_data)` of `main.py` / `main_asincio.py` /
`main_oop.py`. -/
def upload_quotes_data (s : Db) (qs : List QuoteData) : Db :=
  qs.foldl upload_quote_step s

/-- One iteration of `upload_quotes_data` in `main_asincio_motor.py` lines
147-156: `find_one` the author by fullname; when found, set the quote's
author to the found document's `_id` and `insert_one` it; otherwise skip. -/
def upload_quote_step_motor (s : Db) (q : QuoteData) : Db :=
  match find_author_idx s.authors q.author with
  | some i => { s with quotes := s.quotes ++ [⟨q.tags, i, q.quote⟩] }
  | none => s

/-- `upload_quotes_data(quotes_data, db)` of `main_asincio_motor.py`. -/
def upload_quotes_data_motor (s : Db) (qs : List QuoteData) : Db :=
  qs.foldl upload_quote_step_motor s

/-- One iteration of `Database.upload_quotes_data` in `main_oop_asincio.py`
lines 49-60: look the author up in the store; when found, insert the quote
only if no stored quote already has the same text. -/
def upload_quote_step_checked (s : Db) (q : QuoteData) : Db :=
  match find_author_idx s.authors q.author with
  | some i =>
    if quote_present s.quotes q.quote then s
    else { s with quotes := s.quotes ++ [⟨q.tags, i, q.quote⟩] }
  | none => s

/-- `Database.upload_quotes_data(quotes_data)` of `main_oop_asincio.py`. -/
def upload_quotes_data_checked (s : Db) (qs : List QuoteData) : Db :=
  qs.foldl upload_quote_step_checked s

/-- The persistence phase of the pipeline of `main.py` / `main_asincio.py` /
`main_oop.py` (`main.py` lines 171-172): all authors first, then all quotes,
on the extracted record lists. -/
def run_persist (s : Db) (ds : List AuthorData) (qs : List QuoteData) : Db :=
  upload_quotes_data (upload_author_data s ds) qs

/-- The persistence phase of `main_asincio_motor.py` (lines 183-184). -/
def run_persist_motor (s : Db) (ds : List AuthorData)
    (qs : List QuoteData) : Db :=
  upload_quotes_data_motor (upload_author_data_motor s ds) qs

/-- The persistence phase of `main_oop_asincio.py` (lines 253-254). -/
def run_persist_checked (s : Db) (ds : List AuthorData)
    (qs : List QuoteData) : Db :=
  upload_quotes_data_checked (upload_author_data_checked s ds) qs

/-! ## Helper lemmas about the store -/

theorem author_present_cons (a : AuthorData) (rest : List AuthorData)
    (n : String) :
    author_present (a :: rest) n = (a.fullname == n || author_present rest n) := by
  by_cases h : a.fullname == n <;>
    simp [author_present, find_author_idx, h]

theorem author_present_append (A B : List AuthorData) (n : String) :
    author_present (A ++ B) n = (author_present A n || author_present B n) := by
  induction A with
  | nil => simp [author_present, find_author_idx]
  | cons a rest ih =>
      simp only [List.cons_append, author_present_cons, ih, Bool.or_assoc]

theorem author_present_iff (A : List AuthorData) (n : String) :
    author_present A n = true ↔ ∃ a ∈ A, a.fullname = n := by
  induction A with
  | nil => simp [author_present, find_author_idx]
  | cons a rest ih =>
      rw [author_present_cons]
      simp only [Bool.or_eq_true, beq_iff_eq, ih, List.mem_cons]
      constructor
      · rintro (h | ⟨b, hb, hbn⟩)
        · exact ⟨a, Or.inl rfl, h⟩
        · exact ⟨b, Or.inr hb, hbn⟩
      · rintro ⟨b, (rfl | hb), hbn⟩
        · exact Or.inl hbn
        · exact Or.inr ⟨b, hb, hbn⟩

theorem quote_present_append (A B : List StoredQuote) (t : String) :
    quote_present (A ++ B) t = (quote_present A t || quote_present B t) := by
  simp [quote_present, List.any_append]

theorem quote_present_iff (A : List StoredQuote) (t : String) :
    quote_present A t = true ↔ ∃ sq ∈ A, sq.quote = t := by
  simp [quote_present, List.any_eq_true]

theorem upload_author_data_eq (ds : List AuthorData) :
    ∀ s : Db, upload_author_data s ds =
      { authors := s.authors ++ ds, quotes := s.quotes } := by
  induction ds with
  | nil => intro s; simp [upload_author_data]
  | cons d rest ih =>
      intro s
      have h1 : upload_author_data s (d :: rest) =
          upload_author_data (upload_author_step s d) rest := by
        simp [upload_author_data]
      rw [h1, ih]
      simp [upload_author_step]

theorem upload_author_data_motor_eq (s : Db) (ds : List AuthorData) :
    upload_author_data_motor s ds = upload_author_data s ds := by
  rw [upload_author_data_eq]
  rfl

/-- The author document a resolvable quote record is stored with. -/
def link_quote (authors : List AuthorData) (q : QuoteData) :
    Option StoredQuote :=
  (find_author_idx authors q.author).map
    (fun i => { tags := q.tags, author := i, quote := q.quote })

theorem upload_quotes_data_eq (qs : List QuoteData) :
    ∀ s : Db, upload_quotes_data s qs =
      { authors := s.authors,
        quotes := s.quotes ++ qs.filterMap (link_quote s.authors) } := by
  induction qs with
  | nil => intro s; simp [upload_quotes_data]
  | cons q rest ih =>
      intro s
      have h1 : upload_quotes_data s (q :: rest) =
          upload_quotes_data (upload_quote_step s q) rest := by
        simp [upload_quotes_data]
      rw [h1]
      cases hf : find_author_idx s.authors q.author with
      | none =>
          have hstep : upload_quote_step s q = s := by
            simp [upload_quote_step, hf]
          rw [hstep, ih]
          simp [link_quote, hf]
      | some i =>
          have hstep : upload_quote_step s q =
              { authors := s.authors,
                quotes := s.quotes ++
                  [{ tags := q.tags, author := i, quote := q.quote }] } := by
            simp [upload_quote_step, hf]
          rw [hstep, ih]
          simp [link_quote, hf]

theorem upload_quotes_data_motor_eq (s : Db) (qs : List QuoteData) :
    upload_quotes_data_motor s qs = upload_quotes_data s qs := rfl

theorem upload_author_data_checked_spec (ds : List AuthorData) :
    ∀ s : Db, ∃ extra : List AuthorData,
      upload_author_data_checked s ds =
        { authors := s.authors ++ extra, quotes := s.quotes } ∧
      (∀ a ∈ extra, a ∈ ds) ∧
      (∀ a ∈ extra, author_present s.authors a.fullname = false) ∧
      (extra.map (fun a => a.fullname)).Nodup ∧
      (∀ d ∈ ds, author_present (s.authors ++ extra) d.fullname = true) := by
  induction ds with
  | nil =>
      intro s
      exact ⟨[], by simp [upload_author_data_checked], by simp, by simp,
        by simp, by simp⟩
  | cons d rest ih =>
      intro s
      have hfold : upload_author_data_checked s (d :: rest) =
          upload_author_data_checked (upload_author_step_checked s d) rest := by
        simp [upload_author_data_checked]
      by_cases hp : author_present s.authors d.fullname = true
      · have hstep : upload_author_step_checked s d = s := by
          simp [upload_author_step_checked, hp]
        obtain ⟨extra, heq, hsub, hfresh, hnd, hcov⟩ := ih s
        refine ⟨extra, ?_, ?_, hfresh, hnd, ?_⟩
        · rw [hfold, hstep]; exact heq
        · exact fun a ha => List.mem_cons_of_mem _ (hsub a ha)
        · intro e he
          rcases List.mem_cons.mp he with rfl | hmem
          · rw [author_present_append, hp]; rfl
          · exact hcov e hmem
      · have hp' : author_present s.authors d.fullname = false := by
          simpa using hp
        have hstep : upload_author_step_checked s d =
            { authors := s.authors ++ [d], quotes := s.quotes } := by
          simp [upload_author_step_checked, hp']
        obtain ⟨extra, heq, hsub, hfresh, hnd, hcov⟩ :=
          ih { authors := s.authors ++ [d], quotes := s.quotes }
        have hsplit : s.authors ++ d :: extra = (s.authors ++ [d]) ++ extra := by
          simp
        refine ⟨d :: extra, ?_, ?_, ?_, ?_, ?_⟩
        · rw [hfold, hstep, heq]
          simp
        · intro a ha
          rcases List.mem_cons.mp ha with rfl | hmem
          · exact List.mem_cons_self _ _
          · exact List.mem_cons_of_mem _ (hsub a hmem)
        · intro a ha
          rcases List.mem_cons.mp ha with rfl | hmem
          · exact hp'
          · have hfa := hfresh a hmem
            rw [author_present_append] at hfa
            exact (Bool.or_eq_false_iff.mp hfa).1
        · refine List.nodup_cons.mpr ⟨?_, hnd⟩
          intro hmem
          rcases List.mem_map.mp hmem with ⟨a, ha, hfn⟩
          have hfa := hfresh a ha
          rw [author_present_append] at hfa
          have h2 := (Bool.or_eq_false_iff.mp hfa).2
          have h3 : author_present [d] a.fullname = true := by
            rw [author_present_iff]
            exact ⟨d, List.mem_singleton_self _, by simpa using hfn.symm⟩
          rw [h3] at h2
          exact Bool.noConfusion h2
        · intro e he
          rcases List.mem_cons.mp he with rfl | hmem
          · rw [author_present_iff]
            exact ⟨e, by simp, rfl⟩
          · rw [hsplit]
            exact hcov e hmem

theorem upload_quotes_data_checked_spec (qs : List QuoteData) :
    ∀ s : Db, ∃ extra : List StoredQuote,
      upload_quotes_data_checked s qs =
        { authors := s.authors, quotes := s.quotes ++ extra } ∧
      (∀ t ∈ extra, ∃ q ∈ qs, find_author_idx s.authors q.author = some t.author ∧
        t.quote = q.quote ∧ t.tags = q.tags) ∧
      (∀ t ∈ extra, quote_present s.quotes t.quote = false) ∧
      (extra.map (fun t => t.quote)).Nodup ∧
      (∀ q ∈ qs, (find_author_idx s.authors q.author).isSome = true →
        quote_present (s.quotes ++ extra) q.quote = true) := by
  induction qs with
  | nil =>
      intro s
      exact ⟨[], by simp [upload_quotes_data_checked], by simp, by simp,
        by simp, by simp⟩
  | cons q rest ih =>
      intro s
      have hfold : upload_quotes_data_checked s (q :: rest) =
          upload_quotes_data_checked (upload_quote_step_checked s q) rest := by
        simp [upload_quotes_data_checked]
      cases hf : find_author_idx s.authors q.author with
      | none =>
          have hstep : upload_quote_step_checked s q = s := by
            simp [upload_quote_step_checked, hf]
          obtain ⟨extra, heq, hres, hfresh, hnd, hcov⟩ := ih s
          refine ⟨extra, ?_, ?_, hfresh, hnd, ?_⟩
          · rw [hfold, hstep]; exact heq
          · intro t ht
            obtain ⟨q2, hq2, hdet⟩ := hres t ht
            exact ⟨q2, List.mem_cons_of_mem _ hq2, hdet⟩
          · intro e he hsome
            rcases List.mem_cons.mp he with rfl | hmem
            · rw [hf] at hsome
              exact Bool.noConfusion hsome
            · exact hcov e hmem hsome
      | some i =>
          by_cases hq : quote_present s.quotes q.quote = true
          · have hstep : upload_quote_step_checked s q = s := by
              simp [upload_quote_step_checked, hf, hq]
            obtain ⟨extra, heq, hres, hfresh, hnd, hcov⟩ := ih s
            refine ⟨extra, ?_, ?_, hfresh, hnd, ?_⟩
            · rw [hfold, hstep]; exact heq
            · intro t ht
              obtain ⟨q2, hq2, hdet⟩ := hres t ht
              exact ⟨q2, List.mem_cons_of_mem _ hq2, hdet⟩
            · intro e he hsome
              rcases List.mem_cons.mp he with rfl | hmem
              · rw [quote_present_append, hq]; rfl
              · exact hcov e hmem hsome
          · have hq' : quote_present s.quotes q.quote = false := by
              simpa using hq
            have hstep : upload_quote_step_checked s q =
                { authors := s.authors,
                  quotes := s.quotes ++
                    [{ tags := q.tags, author := i, quote := q.quote }] } := by
              simp [upload_quote_step_checked, hf, hq']
            obtain ⟨extra, heq, hres, hfresh, hnd, hcov⟩ :=
              ih { authors := s.authors,
                   quotes := s.quotes ++
                     [{ tags := q.tags, author := i, quote := q.quote }] }
            have hsplit : s.quotes ++
                ({ tags := q.tags, author := i, quote := q.quote } :: extra) =
                (s.quotes ++
                  [{ tags := q.tags, author := i, quote := q.quote }]) ++ extra := by
              simp
            refine ⟨{ tags := q.tags, author := i, quote := q.quote } :: extra,
              ?_, ?_, ?_, ?_, ?_⟩
            · rw [hfold, hstep, heq]
              simp
            · intro t ht
              rcases List.mem_cons.mp ht with rfl | hmem
              · exact ⟨q, List.mem_cons_self _ _, hf, rfl, rfl⟩
              · obtain ⟨q2, hq2, hdet⟩ := hres t hmem
                exact ⟨q2, List.mem_cons_of_mem _ hq2, hdet⟩
            · intro t ht
              rcases List.mem_cons.mp ht with rfl | hmem
              · exact hq'
              · have hft := hfresh t hmem
                rw [quote_present_append] at hft
                exact (Bool.or_eq_false_iff.mp hft).1
            · refine List.nodup_cons.mpr ⟨?_, hnd⟩
              intro hmem
              rcases List.mem_map.mp hmem with ⟨t, ht, htq⟩
              have hft := hfresh t ht
              rw [quote_present_append] at hft
              have h2 := (Bool.or_eq_false_iff.mp hft).2
              have h3 : quote_present
                  [{ tags := q.tags, author := i, quote := q.quote }] t.quote = true := by
                rw [quote_present_iff]
                exact ⟨{ tags := q.tags, author := i, quote := q.quote },
                  List.mem_singleton_self _, by simpa using htq.symm⟩
              rw [h3] at h2
              exact Bool.noConfusion h2
            · intro e he hsome
              rcases List.mem_cons.mp he with rfl | hmem
              · rw [quote_present_iff]
                exact ⟨{ tags := e.tags, author := i, quote := e.quote }, by simp, rfl⟩
              · rw [hsplit]
                exact hcov e hmem hsome

theorem upload_author_data_checked_id (ds : List AuthorData) :
    ∀ s : Db, (∀ d ∈ ds, author_present s.authors d.fullname = true) →
      upload_author_data_checked s ds = s := by
  induction ds with
  | nil => intro s _; rfl
  | cons d rest ih =>
      intro s h
      have hstep : upload_author_step_checked s d = s := by
        simp [upload_author_step_checked, h d (List.mem_cons_self _ _)]
      have hfold : upload_author_data_checked s (d :: rest) =
          upload_author_data_checked (upload_author_step_checked s d) rest := by
        simp [upload_author_data_checked]
      rw [hfold, hstep]
      exact ih s (fun e he => h e (List.mem_cons_of_mem _ he))

theorem upload_quotes_data_checked_id (qs : List QuoteData) :
    ∀ s : Db, (∀ q ∈ qs, (find_author_idx s.authors q.author).isSome = true →
        quote_present s.quotes q.quote = true) →
      upload_quotes_data_checked s qs = s := by
  induction qs with
  | nil => intro s _; rfl
  | cons q rest ih =>
      intro s h
      have hstep : upload_quote_step_checked s q = s := by
        cases hf : find_author_idx s.authors q.author with
        | none => simp [upload_quote_step_checked, hf]
        | some i =>
            have hq := h q (List.mem_cons_self _ _) (by rw [hf]; rfl)
            simp [upload_quote_step_checked, hf, hq]
      have hfold : upload_quotes_data_checked s (q :: rest) =
          upload_quotes_data_checked (upload_quote_step_checked s q) rest := by
        simp [upload_quotes_data_checked]
      rw [hfold, hstep]
      exact ih s (fun e he => h e (List.mem_cons_of_mem _ he))

/-! ## Helper lemmas about `get_authors_info` -/

theorem getElem?_eq_head_drop {α : Type} (l : List α) :
    ∀ el : Nat, l[el]? = (l.drop el).head? := by
  induction l with
  | nil => intro el; simp
  | cons a t ih =>
      intro el
      cases el with
      | zero => simp
      | succ n => simp only [List.getElem?_cons_succ, List.drop_succ_cons]; exact ih n

theorem flatten_singletons (l : List QuoteEl)
    (h : ∀ q ∈ l, q.author_smalls.length = 1) :
    (l.map (fun q => q.author_smalls)).flatten =
      l.map (fun q => q.author_smalls.head?.getD "") := by
  induction l with
  | nil => simp
  | cons q rest ih =>
      obtain ⟨n, hn⟩ := List.length_eq_one.mp (h q (List.mem_cons_self _ _))
      simp only [List.map_cons, List.flatten_cons, hn]
      rw [ih (fun e he => h e (List.mem_cons_of_mem _ he))]
      simp

theorem authors_info_loop_aligned (base : String) (quotes : List QuoteEl) :
    ∀ (qrem : List QuoteEl) (el : Nat) (acc : List AuthorLink),
      quotes.drop el = qrem →
      authors_info_loop base quotes
          (qrem.map (fun q => q.author_smalls.head?.getD "")) el acc =
        some (dedupe_refs (qrem.map (quote_ref base)) acc) := by
  intro qrem
  induction qrem with
  | nil =>
      intro el acc _
      simp [authors_info_loop, dedupe_refs]
  | cons qh qt ih =>
      intro el acc hdrop
      have hget : quotes[el]? = some qh := by
        rw [getElem?_eq_head_drop, hdrop]
        rfl
      have hdrop2 : quotes.drop (el + 1) = qt := by
        have h1 : quotes.drop (el + 1) = (quotes.drop el).drop 1 := by
          rw [List.drop_drop]
        rw [h1, hdrop]
        rfl
      simp only [List.map_cons, authors_info_loop, dedupe_refs, quote_ref]
      by_cases hany :
          acc.any (fun a => a.author_name == qh.author_smalls.head?.getD "") = true
      · rw [if_pos hany, if_pos hany]
        exact ih (el + 1) acc hdrop2
      · rw [if_neg hany, if_neg hany, hget]
        exact ih (el + 1)
          (acc ++ [{ author_name := qh.author_smalls.head?.getD "",
                     author_info_url := base ++ qh.about_href }]) hdrop2

theorem dedupe_refs_append (xs ys : List AuthorLink) :
    ∀ acc, dedupe_refs (xs ++ ys) acc = dedupe_refs ys (dedupe_refs xs acc) := by
  induction xs with
  | nil => intro acc; simp [dedupe_refs]
  | cons r rest ih =>
      intro acc
      simp only [List.cons_append, dedupe_refs]
      by_cases h : acc.any (fun a => a.author_name == r.author_name) = true
      · rw [if_pos h, if_pos h]
        exact ih acc
      · rw [if_neg h, if_neg h]
        exact ih (acc ++ [r])

theorem get_authors_info_pages_aligned (base : String) :
    ∀ (pages : List Page) (acc : List AuthorLink),
      aligned_b pages = true →
      get_authors_info_pages base pages acc =
        some (dedupe_refs (pages_refs base pages) acc) := by
  intro pages
  induction pages with
  | nil =>
      intro acc _
      simp [get_authors_info_pages, pages_refs, dedupe_refs]
  | cons p rest ih =>
      intro acc hal
      have hal1 : ∀ q ∈ p.quotes, q.author_smalls.length = 1 := by
        intro q hq
        have h1 := (List.all_eq_true.mp hal) p (List.mem_cons_self _ _)
        have h2 := (List.all_eq_true.mp h1) q hq
        simpa using h2
      have hal2 : aligned_b rest = true := by
        rw [aligned_b, List.all_eq_true]
        intro p2 hp2
        exact (List.all_eq_true.mp hal) p2 (List.mem_cons_of_mem _ hp2)
      have hpage : get_authors_info_page base p acc =
          some (dedupe_refs (page_refs base p) acc) := by
        rw [get_authors_info_page, Page.small_authors,
          flatten_singletons p.quotes hal1]
        exact authors_info_loop_aligned base p.quotes p.quotes 0 acc
          (List.drop_zero p.quotes)
      simp only [get_authors_info_pages, hpage]
      rw [ih (dedupe_refs (page_refs base p) acc) hal2]
      have hsplit : pages_refs base (p :: rest) =
          page_refs base p ++ pages_refs base rest := by
        simp [pages_refs]
      rw [hsplit, dedupe_refs_append]

theorem dedupe_refs_exists_append :
    ∀ (l acc : List AuthorLink), ∃ t, dedupe_refs l acc = acc ++ t ∧ t.Sublist l := by
  intro l
  induction l with
  | nil => intro acc; exact ⟨[], by simp [dedupe_refs], List.Sublist.refl _⟩
  | cons r rest ih =>
      intro acc
      simp only [dedupe_refs]
      by_cases h : acc.any (fun a => a.author_name == r.author_name) = true
      · rw [if_pos h]
        obtain ⟨t, ht, hs⟩ := ih acc
        exact ⟨t, ht, hs.cons r⟩
      · rw [if_neg h]
        obtain ⟨t, ht, hs⟩ := ih (acc ++ [r])
        exact ⟨r :: t, by rw [ht]; simp, hs.cons₂ r⟩

theorem dedupe_refs_nodup :
    ∀ (l acc : List AuthorLink),
      (acc.map (fun a => a.author_name)).Nodup →
      ((dedupe_refs l acc).map (fun a => a.author_name)).Nodup := by
  intro l
  induction l with
  | nil => intro acc h; exact h
  | cons r rest ih =>
      intro acc h
      simp only [dedupe_refs]
      by_cases hany : acc.any (fun a => a.author_name == r.author_name) = true
      · rw [if_pos hany]
        exact ih acc h
      · rw [if_neg hany]
        have hany2 : acc.any (fun a => a.author_name == r.author_name) = false := by
          simpa using hany
        refine ih (acc ++ [r]) ?_
        rw [List.map_append]
        simp only [List.map_cons, List.map_nil]
        rw [List.nodup_append]
        refine ⟨h, List.nodup_singleton _, ?_⟩
        intro n hn hn2
        rcases List.mem_map.mp hn with ⟨a, ha, hna⟩
        have hne : a.author_name ≠ r.author_name := by
          have h3 := List.any_eq_false.mp hany2 a ha
          simpa using h3
        rcases List.mem_singleton.mp hn2 with rfl
        exact hne hna

theorem dedupe_refs_coverage :
    ∀ (l acc : List AuthorLink) (r : AuthorLink), r ∈ l →
      ∃ u ∈ dedupe_refs l acc, u.author_name = r.author_name := by
  intro l
  induction l with
  | nil => intro acc r hr; exact absurd hr (List.not_mem_nil _)
  | cons r0 rest ih =>
      intro acc r hr
      simp only [dedupe_refs]
      by_cases hany : acc.any (fun a => a.author_name == r0.author_name) = true
      · rw [if_pos hany]
        rcases List.mem_cons.mp hr with rfl | hmem
        · rcases List.any_eq_true.mp hany with ⟨a, ha, haeq⟩
          obtain ⟨t, ht, _⟩ := dedupe_refs_exists_append rest acc
          exact ⟨a, by rw [ht]; exact List.mem_append_left _ ha,
            by simpa using haeq⟩
        · exact ih acc r hmem
      · rw [if_neg hany]
        rcases List.mem_cons.mp hr with rfl | hmem
        · obtain ⟨t, ht, _⟩ := dedupe_refs_exists_append rest (acc ++ [r])
          refine ⟨r, ?_, rfl⟩
          rw [ht]
          exact List.mem_append_left _ (List.mem_append_right _
            (List.mem_singleton_self _))
        · exact ih (acc ++ [r0]) r hmem

theorem dedupe_refs_first :
    ∀ (l acc : List AuthorLink) (u : AuthorLink), u ∈ dedupe_refs l acc →
      u ∈ acc ∨ (u ∈ l ∧
        l.find? (fun a => a.author_name == u.author_name) = some u ∧
        acc.any (fun a => a.author_name == u.author_name) = false) := by
  intro l
  induction l with
  | nil => intro acc u hu; exact Or.inl (by simpa [dedupe_refs] using hu)
  | cons r rest ih =>
      intro acc u hu
      simp only [dedupe_refs] at hu
      by_cases hany : acc.any (fun a => a.author_name == r.author_name) = true
      · rw [if_pos hany] at hu
        rcases ih acc u hu with hacc | ⟨hmem, hfind, hnacc⟩
        · exact Or.inl hacc
        · refine Or.inr ⟨List.mem_cons_of_mem _ hmem, ?_, hnacc⟩
          rw [List.find?_cons_of_neg]
          · exact hfind
          · intro hru
            rcases List.any_eq_true.mp hany with ⟨a, ha, haeq⟩
            have h1 : a.author_name = r.author_name := by simpa using haeq
            have h2 : r.author_name = u.author_name := by simpa using hru
            have h3 := List.any_eq_false.mp hnacc a ha
            simp only [beq_iff_eq] at h3
            exact h3 (h1.trans h2)
      · rw [if_neg hany] at hu
        have hany2 : acc.any (fun a => a.author_name == r.author_name) = false := by
          simpa using hany
        rcases ih (acc ++ [r]) u hu with hacc | ⟨hmem, hfind, hnacc⟩
        · rcases List.mem_append.mp hacc with h | h
          · exact Or.inl h
          · rcases List.mem_singleton.mp h with rfl
            refine Or.inr ⟨List.mem_cons_self _ _, ?_, hany2⟩
            rw [List.find?_cons_of_pos]
            simp
        · rw [List.any_append] at hnacc
          rcases Bool.or_eq_false_iff.mp hnacc with ⟨hn1, hn2⟩
          refine Or.inr ⟨List.mem_cons_of_mem _ hmem, ?_, hn1⟩
          rw [List.find?_cons_of_neg]
          · exact hfind
          · intro hru
            have h3 := List.any_eq_false.mp hn2 r (List.mem_singleton_self _)
            simp only [beq_iff_eq] at h3 hru
            exact h3 hru

theorem authors_info_loop_fail (base : String) (quotes : List QuoteEl) :
    ∀ (rem : List String) (el : Nat) (acc : List AuthorLink),
      rem.Nodup → el ≤ quotes.length → quotes.length < el + rem.length →
      (∀ a ∈ acc, a.author_name ∉ rem) →
      authors_info_loop base quotes rem el acc = none := by
  intro rem
  induction rem with
  | nil =>
      intro el acc _ hle hlt _
      simp only [List.length_nil, Nat.add_zero] at hlt
      exact absurd hlt (Nat.not_lt.mpr hle)
  | cons name rest ih =>
      intro el acc hnd hle hlt hdis
      have hany : ¬ acc.any (fun a => a.author_name == name) = true := by
        rw [Bool.not_eq_true, List.any_eq_false]
        intro a ha
        have h1 := hdis a ha
        simp only [List.mem_cons, not_or] at h1
        simpa using h1.1
      simp only [authors_info_loop]
      rw [if_neg hany]
      by_cases hel : el < quotes.length
      · rw [List.getElem?_eq_getElem hel]
        apply ih (el + 1)
        · exact (List.nodup_cons.mp hnd).2
        · exact hel
        · simp only [List.length_cons] at hlt
          omega
        · intro a ha
          rcases List.mem_append.mp ha with h | h
          · have h1 := hdis a h
            simp only [List.mem_cons, not_or] at h1
            exact h1.2
          · rcases List.mem_singleton.mp h with rfl
            exact (List.nodup_cons.mp hnd).1
      · rw [List.getElem?_eq_none (Nat.not_lt.mp hel)]

/-! ## Concrete sample data used by witnesses and counterexamples -/

def a1 : AuthorData :=
  { fullname := "Albert Einstein", born_date := "March 14, 1879",
    born_location := "in Ulm, Germany", description := "physicist" }

def s0 : Db := { authors := [], quotes := [] }

def s1 : Db := { authors := [a1], quotes := [] }

def q1 : QuoteData :=
  { tags := ["change"], author := "Albert Einstein", quote := "Hello world" }

def s2 : Db :=
  { authors := [a1],
    quotes := [{ tags := ["change"], author := 0, quote := "Hello world" }] }

def q7 : QuoteData := { tags := [], author := "Nobody", quote := "untracked" }

/-! ## Claim theorems -/

/-- C1 (corrected): `Database.upload_author_data` of `main_oop_asincio.py`
persists insert-if-absent on `fullname`: the stored authors are extended only
by records whose fullname was absent from the store (and from the records
inserted earlier in the same run), nothing is overwritten, and a record whose
fullname is already stored is skipped. The `upload_author_data` of `main.py`,
`main_asincio.py`, `main_oop.py` and of `main_asincio_motor.py`, by contrast,
appends every record unconditionally. -/
theorem c1_author_insert_semantics (s : Db) (ds : List AuthorData) :
    (upload_author_data s ds).authors = s.authors ++ ds ∧
    (upload_author_data_motor s ds).authors = s.authors ++ ds ∧
    ∃ extra : List AuthorData,
      upload_author_data_checked s ds =
        { authors := s.authors ++ extra, quotes := s.quotes } ∧
      (∀ a ∈ extra, a ∈ ds) ∧
      (∀ a ∈ extra, author_present s.authors a.fullname = false) ∧
      (extra.map (fun a => a.fullname)).Nodup ∧
      (∀ d ∈ ds, author_present (s.authors ++ extra) d.fullname = true) := by
  refine ⟨?_, ?_, upload_author_data_checked_spec ds s⟩
  · rw [upload_author_data_eq]
  · rw [upload_author_data_motor_eq, upload_author_data_eq]

theorem c1_author_insert_semantics_witness :
    (upload_author_data s1 [a1]).authors = s1.authors ++ [a1] ∧
    (upload_author_data_motor s1 [a1]).authors = s1.authors ++ [a1] ∧
    ∃ extra : List AuthorData,
      upload_author_data_checked s1 [a1] =
        { authors := s1.authors ++ extra, quotes := s1.quotes } ∧
      (∀ a ∈ extra, a ∈ [a1]) ∧
      (∀ a ∈ extra, author_present s1.authors a.fullname = false) ∧
      (extra.map (fun a => a.fullname)).Nodup ∧
      (∀ d ∈ [a1], author_present (s1.authors ++ extra) d.fullname = true) :=
  c1_author_insert_semantics s1 [a1]

/-- C1 counterexample: with the author `a1` already stored, `main.py`'s
`upload_author_data` nevertheless inserts the record again — it does not skip
a record whose fullname is already present in the store. -/
theorem c1_counterexample :
    author_present s1.authors a1.fullname = true ∧
    (upload_author_data s1 [a1]).authors = [a1, a1] := by decide

/-- C2 (corrected): in `main.py` / `main_asincio.py` / `main_oop.py` and in
`main_asincio_motor.py`, `upload_quotes_data` resolves every quote's author
name by a lookup against the stored authors and inserts every quote whose
author resolves — with no deduplication on the quote text. Only
`Database.upload_quotes_data` of `main_oop_asincio.py` additionally skips a
quote whose text is already stored (and never inserts the same text twice in
one run); it too resolves the author against the store. -/
theorem c2_quote_insert_semantics (s : Db) (qs : List QuoteData) :
    upload_quotes_data s qs =
      { authors := s.authors,
        quotes := s.quotes ++ qs.filterMap (link_quote s.authors) } ∧
    upload_quotes_data_motor s qs = upload_quotes_data s qs ∧
    ∃ extra : List StoredQuote,
      upload_quotes_data_checked s qs =
        { authors := s.authors, quotes := s.quotes ++ extra } ∧
      (∀ t ∈ extra, ∃ q ∈ qs,
        find_author_idx s.authors q.author = some t.author ∧
        t.quote = q.quote ∧ t.tags = q.tags) ∧
      (∀ t ∈ extra, quote_present s.quotes t.quote = false) ∧
      (extra.map (fun t => t.quote)).Nodup ∧
      (∀ q ∈ qs, (find_author_idx s.authors q.author).isSome = true →
        quote_present (s.quotes ++ extra) q.quote = true) :=
  ⟨upload_quotes_data_eq qs s, upload_quotes_data_motor_eq s qs,
    upload_quotes_data_checked_spec qs s⟩

theorem c2_quote_insert_semantics_witness :
    upload_quotes_data s2 [q1] =
      { authors := s2.authors,
        quotes := s2.quotes ++ [q1].filterMap (link_quote s2.authors) } ∧
    upload_quotes_data_motor s2 [q1] = upload_quotes_data s2 [q1] ∧
    ∃ extra : List StoredQuote,
      upload_quotes_data_checked s2 [q1] =
        { authors := s2.authors, quotes := s2.quotes ++ extra } ∧
      (∀ t ∈ extra, ∃ q ∈ [q1],
        find_author_idx s2.authors q.author = some t.author ∧
        t.quote = q.quote ∧ t.tags = q.tags) ∧
      (∀ t ∈ extra, quote_present s2.quotes t.quote = false) ∧
      (extra.map (fun t => t.quote)).Nodup ∧
      (∀ q ∈ [q1], (find_author_idx s2.authors q.author).isSome = true →
        quote_present (s2.quotes ++ extra) q.quote = true) :=
  c2_quote_insert_semantics s2 [q1]

/-- C2 counterexample: with a quote of the same text already stored (and its
author stored), `main.py`'s `upload_quotes_data` inserts the quote again — a
quote whose text is already present in the store is not skipped. -/
theorem c2_counterexample :
    quote_present s2.quotes q1.quote = true ∧
    (upload_quotes_data s2 [q1]).quotes =
      [{ tags := ["change"], author := 0, quote := "Hello world" },
       { tags := ["change"], author := 0, quote := "Hello world" }] := by decide

/-- C3 (corrected): for the `main_oop_asincio.py` persister, running the
persistence phase twice on the same extracted record lists leaves the store
exactly as one run leaves it (authors first, then quotes, insert-if-absent on
`fullname` resp. quote text). For the persister of `main.py` (and its
unchecked siblings) a second run duplicates every author record and every
author-resolving quote record. -/
theorem c3_pipeline_idempotent_checked (s : Db) (ds : List AuthorData)
    (qs : List QuoteData) :
    run_persist_checked (run_persist_checked s ds qs) ds qs =
      run_persist_checked s ds qs := by
  obtain ⟨extraA, heqA, _, _, _, hcovA⟩ := upload_author_data_checked_spec ds s
  obtain ⟨extraQ, heqQ, _, _, _, hcovQ⟩ :=
    upload_quotes_data_checked_spec qs (upload_author_data_checked s ds)
  have hid1 : upload_author_data_checked (run_persist_checked s ds qs) ds =
      run_persist_checked s ds qs := by
    apply upload_author_data_checked_id
    intro d hd
    have hA : (run_persist_checked s ds qs).authors = s.authors ++ extraA := by
      show (upload_quotes_data_checked (upload_author_data_checked s ds) qs).authors = _
      rw [heqQ, heqA]
    rw [hA]
    exact hcovA d hd
  have hid2 : upload_quotes_data_checked (run_persist_checked s ds qs) qs =
      run_persist_checked s ds qs := by
    apply upload_quotes_data_checked_id
    intro q hq hsome
    have hA : (run_persist_checked s ds qs).authors =
        (upload_author_data_checked s ds).authors := by
      show (upload_quotes_data_checked (upload_author_data_checked s ds) qs).authors = _
      rw [heqQ]
    have hQ : (run_persist_checked s ds qs).quotes =
        (upload_author_data_checked s ds).quotes ++ extraQ := by
      show (upload_quotes_data_checked (upload_author_data_checked s ds) qs).quotes = _
      rw [heqQ]
    rw [hQ]
    rw [hA] at hsome
    exact hcovQ q hq hsome
  show upload_quotes_data_checked
    (upload_author_data_checked (run_persist_checked s ds qs) ds) qs = _
  rw [hid1, hid2]

theorem c3_pipeline_idempotent_checked_witness :
    run_persist_checked (run_persist_checked s0 [a1] [q1]) [a1] [q1] =
      run_persist_checked s0 [a1] [q1] :=
  c3_pipeline_idempotent_checked s0 [a1] [q1]

/-- C3 counterexample: for the `main.py` pipeline, running the persistence
phase twice on the same extracted records against an initially empty store
duplicates the author record — the store does not hold the same records as
after one run. -/
theorem c3_counterexample :
    (run_persist s0 [a1] [q1]).authors = [a1] ∧
    (run_persist (run_persist s0 [a1] [q1]) [a1] [q1]).authors = [a1, a1] := by
  decide

/-- C4 (corrected): four of the five variants (`main.py`, `main_asincio.py`,
`main_oop.py` — whose extraction and persistence code is token-identical and
is embedded once — and `main_asincio_motor.py`) persist identically for every
input and every initial store. `main_oop_asincio.py` differs in algorithmic
substance: its persister checks for already-stored fullnames and quote texts
where the others insert unconditionally. -/
theorem c4_variants_agree (s : Db) (ds : List AuthorData)
    (qs : List QuoteData) :
    run_persist_motor s ds qs = run_persist s ds qs ∧
    upload_author_data_motor s ds = upload_author_data s ds ∧
    upload_quotes_data_motor s qs = upload_quotes_data s qs := by
  refine ⟨?_, ?_, upload_quotes_data_motor_eq s qs⟩
  · show upload_quotes_data_motor (upload_author_data_motor s ds) qs = _
    rw [upload_author_data_motor_eq]
    exact upload_quotes_data_motor_eq _ _
  · rw [upload_author_data_motor_eq]

theorem c4_variants_agree_witness :
    run_persist_motor s1 [a1] [q1] = run_persist s1 [a1] [q1] ∧
    upload_author_data_motor s1 [a1] = upload_author_data s1 [a1] ∧
    upload_quotes_data_motor s1 [q1] = upload_quotes_data s1 [q1] :=
  c4_variants_agree s1 [a1] [q1]

/-- C4 counterexample: against a store that already holds the author, the
`main.py` persister and the `main_oop_asincio.py` persister produce different
stores on the same input — the five variants do not all realise the same
persisted author set. -/
theorem c4_counterexample :
    (run_persist s1 [a1] [q1]).authors = [a1, a1] ∧
    (run_persist_checked s1 [a1] [q1]).authors = [a1] := by decide

def qA : QuoteEl :=
  { author_smalls := ["Albert Einstein"],
    about_href := "/author/Albert-Einstein", quote_text := "The world",
    tag_texts := ["change"] }

def qB : QuoteEl :=
  { author_smalls := ["Albert Einstein"],
    about_href := "/author/Albert-Einstein-dup", quote_text := "Two things",
    tag_texts := [] }

def pages5 : List Page := [{ quotes := [qA] }, { quotes := [qB] }]

/-- C5 (confirmed): over listing pages in which every quote element displays
exactly one author name, `get_authors_info` succeeds and returns exactly the
first-occurrence dedupe of the per-quote author references: one reference per
distinct author name (`Nodup` of the emitted names plus one emitted reference
per occurring name), emitted in first-occurrence order (a sublist of the raw
reference sequence), and each emitted reference is the first raw occurrence
of its name — so the profile URL of the first occurrence is kept and every
later occurrence, even with a different URL, is discarded. -/
theorem c5_dedupe_first_occurrence (base : String) (pages : List Page)
    (hal : aligned_b pages = true) :
    get_authors_info base pages =
      some (dedupe_refs (pages_refs base pages) []) ∧
    ((dedupe_refs (pages_refs base pages) []).map
      (fun a => a.author_name)).Nodup ∧
    (dedupe_refs (pages_refs base pages) []).Sublist (pages_refs base pages) ∧
    (∀ r ∈ pages_refs base pages, ∃ u ∈ dedupe_refs (pages_refs base pages) [],
      u.author_name = r.author_name) ∧
    (∀ u ∈ dedupe_refs (pages_refs base pages) [],
      (pages_refs base pages).find?
        (fun a => a.author_name == u.author_name) = some u) := by
  refine ⟨get_authors_info_pages_aligned base pages [] hal,
    dedupe_refs_nodup _ [] (by simp), ?_,
    fun r hr => dedupe_refs_coverage _ [] r hr, ?_⟩
  · obtain ⟨t, ht, hs⟩ := dedupe_refs_exists_append (pages_refs base pages) []
    rw [ht]
    simpa using hs
  · intro u hu
    rcases dedupe_refs_first _ [] u hu with h | ⟨_, hfind, _⟩
    · exact absurd h (List.not_mem_nil u)
    · exact hfind

theorem c5_dedupe_first_occurrence_witness :
    aligned_b pages5 = true ∧
    get_authors_info "https://quotes.toscrape.com" pages5 =
      some [{ author_name := "Albert Einstein",
              author_info_url :=
                "https://quotes.toscrape.com/author/Albert-Einstein" }] := by
  refine ⟨by decide, ?_⟩
  have h := (c5_dedupe_first_occurrence "https://quotes.toscrape.com" pages5
    (by decide)).1
  rw [h]
  decide

/-- Next-pointer environment of a three-page listing: the page at `S` has
next link `A`, the page at `SA` has next link `B`, the page at `SB` has no
next link. -/
def fc6 : String → Option String := fun u =>
  if u = "S" then some "A" else if u = "SA" then some "B" else none

/-- C6 (corrected): on a finite acyclic next-chain the pagination walk
terminates at the first page without a next link and returns the page URLs
in crawl order, seed first, one entry per page — but each subsequent URL is
the seed concatenated with the href read from the previous page (the source
appends `base_link + link`), so a 3-page chain with hrefs `A` then `B`
yields `[seed, seed+A, seed+B]`, not `[seed, seed+A, seed+A+B]`. -/
theorem c6_pagination_chain (f : String → Option String) (base : String)
    (hs : List String) (fuel : Nat) (hch : next_chain f base base hs)
    (hfuel : hs.length < fuel) :
    get_pages f base fuel = some (base :: hs.map (fun h => base ++ h)) := by
  show get_pages_loop f base fuel base [base] = _
  rw [get_pages_loop_chain f base hs fuel base [base] hch hfuel]
  rfl

theorem c6_pagination_chain_witness :
    next_chain fc6 "S" "S" ["A", "B"] ∧
    get_pages fc6 "S" 10 = some ["S", "SA", "SB"] := by
  have hch : next_chain fc6 "S" "S" ["A", "B"] :=
    ⟨by decide, by decide, (by decide : fc6 ("S" ++ "B") = none)⟩
  refine ⟨hch, ?_⟩
  have h := c6_pagination_chain fc6 "S" ["A", "B"] 10 hch (by decide)
  rw [h]
  decide

/-- C6 counterexample: on the 3-page chain with hrefs `A` then `B` starting
from seed `S`, `get_pages` returns `[S, SA, SB]`, which differs from the
claimed `[seed, seed+A, seed+A+B] = [S, SA, SAB]`. -/
theorem c6_counterexample :
    get_pages fc6 "S" 10 = some ["S", "SA", "SB"] ∧
    (["S", "SA", "SB"] : List String) ≠
      ["S", "S" ++ "A", "S" ++ "A" ++ "B"] := by
  constructor
  · decide
  · decide

/-- C7 (confirmed): a quote record whose author name matches no author stored
at the moment the quote is processed is silently excluded by
`upload_quotes_data` (both the `main.py` and the `main_asincio_motor.py`
versions): no record is inserted, no failure occurs, the store is exactly as
if the quote were absent from the input, and all remaining quotes are still
processed. -/
theorem c7_silent_skip (s : Db) (q : QuoteData) (qs1 qs2 : List QuoteData)
    (h : find_author_idx (upload_quotes_data s qs1).authors q.author = none) :
    upload_quotes_data s (qs1 ++ q :: qs2) =
      upload_quotes_data (upload_quotes_data s qs1) qs2 ∧
    upload_quotes_data_motor s (qs1 ++ q :: qs2) =
      upload_quotes_data_motor (upload_quotes_data_motor s qs1) qs2 := by
  have hstep : upload_quote_step (upload_quotes_data s qs1) q =
      upload_quotes_data s qs1 := by
    simp [upload_quote_step, h]
  constructor
  · show List.foldl upload_quote_step s (qs1 ++ q :: qs2) = _
    rw [List.foldl_append, List.foldl_cons]
    rw [show List.foldl upload_quote_step s qs1 = upload_quotes_data s qs1 from rfl,
      hstep]
    rfl
  · have h2 : find_author_idx
        (upload_quotes_data_motor s qs1).authors q.author = none := h
    have hstep2 : upload_quote_step_motor (upload_quotes_data_motor s qs1) q =
        upload_quotes_data_motor s qs1 := by
      simp [upload_quote_step_motor, h2]
    show List.foldl upload_quote_step_motor s (qs1 ++ q :: qs2) = _
    rw [List.foldl_append, List.foldl_cons]
    rw [show List.foldl upload_quote_step_motor s qs1 =
      upload_quotes_data_motor s qs1 from rfl, hstep2]
    rfl

theorem c7_silent_skip_witness :
    find_author_idx (upload_quotes_data s1 []).authors q7.author = none ∧
    (upload_quotes_data s1 ([] ++ q7 :: [q1]) =
        upload_quotes_data (upload_quotes_data s1 []) [q1] ∧
      upload_quotes_data_motor s1 ([] ++ q7 :: [q1]) =
        upload_quotes_data_motor (upload_quotes_data_motor s1 []) [q1]) :=
  ⟨by decide, c7_silent_skip s1 q7 [] [q1] (by decide)⟩

theorem parse_author_page_eq_some {p : AuthorPage} {d : AuthorData}
    (h : parse_author_page p = some d) :
    ∃ t dd loc desc : String, p.author_title = some t ∧
      p.author_born_date = some dd ∧ p.author_born_location = some loc ∧
      p.author_description = some desc ∧
      d = { fullname := t.trim, born_date := dd.trim,
            born_location := loc.trim, description := desc.trim } := by
  cases htt : p.author_title with
  | none => simp [parse_author_page, htt] at h
  | some t =>
    cases hbd : p.author_born_date with
    | none => simp [parse_author_page, htt, hbd] at h
    | some dd =>
      cases hbl : p.author_born_location with
      | none => simp [parse_author_page, htt, hbd, hbl] at h
      | some loc =>
        cases hds : p.author_description with
        | none => simp [parse_author_page, htt, hbd, hbl, hds] at h
        | some desc =>
            refine ⟨t, dd, loc, desc, rfl, rfl, rfl, rfl, ?_⟩
            simp only [parse_author_page, htt, hbd, hbl, hds,
              Option.some.injEq] at h
            exact h.symm

/-- C8 (confirmed): for every input sequence of author references,
`parse_authors` either fails as a whole — and then some fetched document is
missing one of the four expected fields — or returns exactly one record per
input reference, in order, whose four fields are the whitespace-trimmed texts
of the four fixed structural positions of that reference's fetched document;
no partial record is ever produced. -/
theorem c8_resolver_all_or_nothing (fetch : String → AuthorPage)
    (links : List AuthorLink) :
    (parse_authors fetch links = none ∧
      ∃ a ∈ links, parse_author_page (fetch a.author_info_url) = none) ∨
    (∃ out : List AuthorData, parse_authors fetch links = some out ∧
      out.length = links.length ∧
      ∀ (i : Nat) (a : AuthorLink), links[i]? = some a →
        ∃ t dd loc desc : String,
          (fetch a.author_info_url).author_title = some t ∧
          (fetch a.author_info_url).author_born_date = some dd ∧
          (fetch a.author_info_url).author_born_location = some loc ∧
          (fetch a.author_info_url).author_description = some desc ∧
          out[i]? = some { fullname := t.trim, born_date := dd.trim,
                           born_location := loc.trim,
                           description := desc.trim }) := by
  induction links with
  | nil =>
      right
      refine ⟨[], rfl, rfl, ?_⟩
      intro i a hia
      simp at hia
  | cons a rest ih =>
      cases hpa : parse_author_page (fetch a.author_info_url) with
      | none =>
          left
          refine ⟨?_, a, List.mem_cons_self _ _, hpa⟩
          simp [parse_authors, hpa]
      | some d =>
          rcases ih with ⟨hnone, a2, ha2, hpa2⟩ | ⟨out, hsome, hlen, hidx⟩
          · left
            refine ⟨?_, a2, List.mem_cons_of_mem _ ha2, hpa2⟩
            simp [parse_authors, hpa, hnone]
          · right
            refine ⟨d :: out, ?_, by simp [hlen], ?_⟩
            · simp [parse_authors, hpa, hsome]
            · intro i a2 hia
              cases i with
              | zero =>
                  simp only [List.getElem?_cons_zero, Option.some.injEq] at hia
                  subst hia
                  obtain ⟨t, dd, loc, desc, h1, h2, h3, h4, h5⟩ :=
                    parse_author_page_eq_some hpa
                  refine ⟨t, dd, loc, desc, h1, h2, h3, h4, ?_⟩
                  simp only [List.getElem?_cons_zero, Option.some.injEq]
                  exact h5
              | succ n =>
                  simp only [List.getElem?_cons_succ] at hia
                  obtain ⟨t, dd, loc, desc, h1, h2, h3, h4, h5⟩ :=
                    hidx n a2 hia
                  exact ⟨t, dd, loc, desc, h1, h2, h3, h4, by simpa using h5⟩

/-- A fetch environment for the resolver witness: every URL serves a document
with all four fields present. -/
def fetch8 : String → AuthorPage := fun _ =>
  { author_title := some "Albert Einstein", author_born_date := some "1879",
    author_born_location := some "Ulm", author_description := some "bio" }

def links8 : List AuthorLink :=
  [{ author_name := "Albert Einstein",
     author_info_url := "/author/Albert-Einstein" }]

theorem c8_resolver_all_or_nothing_witness :
    (parse_authors fetch8 links8 = none ∧
      ∃ a ∈ links8, parse_author_page (fetch8 a.author_info_url) = none) ∨
    (∃ out : List AuthorData, parse_authors fetch8 links8 = some out ∧
      out.length = links8.length ∧
      ∀ (i : Nat) (a : AuthorLink), links8[i]? = some a →
        ∃ t dd loc desc : String,
          (fetch8 a.author_info_url).author_title = some t ∧
          (fetch8 a.author_info_url).author_born_date = some dd ∧
          (fetch8 a.author_info_url).author_born_location = some loc ∧
          (fetch8 a.author_info_url).author_description = some desc ∧
          out[i]? = some { fullname := t.trim, born_date := dd.trim,
                           born_location := loc.trim,
                           description := desc.trim }) :=
  c8_resolver_all_or_nothing fetch8 links8

/-- C9 (confirmed): the tag sequence of an extracted quote record is exactly
the sequence of the quote element's tag texts in markup order, each only
whitespace-trimmed — no deduplication and no sorting. -/
theorem c9_tag_order (el : QuoteEl) (q : QuoteData)
    (h : parse_quote_el el = some q) :
    q.tags = el.tag_texts.map String.trim := by
  cases hh : el.author_smalls.head? with
  | none => simp [parse_quote_el, hh] at h
  | some a =>
      simp only [parse_quote_el, hh, Option.some.injEq] at h
      subst h
      rfl

def el9 : QuoteEl :=
  { author_smalls := ["Albert Einstein"], about_href := "/author/Albert-Einstein",
    quote_text := "The world as we have created it",
    tag_texts := ["change", "deep-thoughts", "thinking"] }

theorem c9_tag_order_witness :
    parse_quote_el el9 =
      some { tags := el9.tag_texts.map String.trim,
             author := "Albert Einstein",
             quote := "The world as we have created it" } ∧
    ({ tags := el9.tag_texts.map String.trim,
       author := "Albert Einstein",
       quote := "The world as we have created it" } : QuoteData).tags =
      el9.tag_texts.map String.trim :=
  ⟨rfl, c9_tag_order el9 _ rfl⟩

/-- C10 (corrected): when every quote element of every crawled page displays
exactly one author name, the two `find_all` lists of `get_authors_info` align
positionally: the loop never indexes out of range and pairs each author name
with the about-link of its own quote element (the result is the
first-occurrence dedupe of the per-quote name/link pairs). On a page with
more author-name elements than quote elements whose author names are pairwise
distinct, the loop reaches an out-of-range index and fails — but the failure
is not unconditional: if the excess names repeat earlier ones, the dedup
guard skips the out-of-range access and the call succeeds. -/
theorem c10_positional_pairing :
    (∀ (base : String) (pages : List Page), aligned_b pages = true →
      get_authors_info base pages =
        some (dedupe_refs (pages_refs base pages) [])) ∧
    (∀ (base : String) (p : Page), p.small_authors.Nodup →
      p.quotes.length < p.small_authors.length →
      get_authors_info base [p] = none) := by
  constructor
  · intro base pages hal
    exact get_authors_info_pages_aligned base pages [] hal
  · intro base p hnd hlt
    have hpage : get_authors_info_page base p [] = none := by
      rw [get_authors_info_page]
      apply authors_info_loop_fail base p.quotes p.small_authors 0 [] hnd
        (Nat.zero_le _)
      · simpa using hlt
      · intro a ha
        exact absurd ha (List.not_mem_nil a)
    simp [get_authors_info, get_authors_info_pages, hpage]

/-- A page whose single quote element displays two distinct author names:
three... two author-name elements against one quote element. -/
def p10 : Page :=
  { quotes := [{ author_smalls := ["X", "Y"], about_href := "/x",
                 quote_text := "q", tag_texts := [] }] }

theorem c10_positional_pairing_witness :
    get_authors_info "B" [p10] = none ∧
    get_authors_info "B" pages5 =
      some (dedupe_refs (pages_refs "B" pages5) []) :=
  ⟨c10_positional_pairing.2 "B" p10 (by decide) (by decide),
    c10_positional_pairing.1 "B" pages5 (by decide)⟩

/-- A page with three author-name elements but only two quote elements, in
which the third author name repeats the first. -/
def p10c : Page :=
  { quotes := [{ author_smalls := ["X", "Y"], about_href := "/x",
                 quote_text := "q1", tag_texts := [] },
               { author_smalls := ["X"], about_href := "/y",
                 quote_text := "q2", tag_texts := [] }] }

/-- C10 counterexample: a page with more author-name elements (3) than quote
elements (2) on which `get_authors_info` nevertheless succeeds — the excess
author-name occurrence repeats an already-collected name, so the dedup guard
skips the out-of-range access and no error occurs. -/
theorem c10_counterexample :
    p10c.quotes.length < p10c.small_authors.length ∧
    get_authors_info "B" [p10c] =
      some [{ author_name := "X", author_info_url := "B/x" },
            { author_name := "Y", author_info_url := "B/y" }] := by decide

end Hw9
